import Mathlib

/-!
Shallow embedding of the relayer core of `ethlaundry.xyz`:

* `src/relayer/src/light_client/mod.rs` — per-chain header store, bootstrap
  (`sync_headers`), incremental polling (`poll_new_blocks` /
  `process_new_block` / `handle_reorg`) and Merkle verification
  (`verify_merkle_proof`, `LightClient::verify_inclusion`).
* `src/relayer/src/prover/mod.rs` — proof request admission
  (`ProverService::generate`, `queue_depth`) and the pure proof generator
  (`generate_proof`, `generate_dummy_proof`).

32-byte hashes (`H256`, `[u8; 32]` words) are modelled as `Nat`; byte
buffers as `List Nat`.  The external `keccak256` of two concatenated
32-byte words is modelled as an abstract binary function
`H2 : Nat → Nat → Nat` (the concatenation of two fixed-width words is a
pairing, so a binary function on hash values is faithful).  Chain RPC
providers are modelled by the responses the code consumes: a reported
current height `Nat` and a fetch function `Nat → Option StoredHeader`.
-/

namespace EthLaundry

/-- `StoredHeader` from `light_client/mod.rs` (fields copied from the
provider's block response). -/
structure StoredHeader where
  block_number : Nat
  block_hash : Nat
  parent_hash : Nat
  state_root : Nat
  transactions_root : Nat
  receipts_root : Nat
  timestamp : Nat
deriving DecidableEq, Repr

/-- `LightClientEvent` from `light_client/mod.rs`. -/
inductive LightClientEvent where
  | NewBlock (chain_id block_number block_hash : Nat)
  | Reorg (chain_id depth : Nat)
deriving DecidableEq, Repr

/-- Per-chain slice of the `LightClient` state: the `headers` vector for
one chain id (index 0 oldest, last entry newest, matching `Vec` order)
and the `finalized` entry for that chain. -/
structure ChainState where
  headers : List StoredHeader
  finalized : Nat
deriving DecidableEq, Repr

/-- The `while let Some(header) = headers.pop()` loop of `handle_reorg`,
expressed on the reversed header list (so `Vec::pop` from the tail is
taking the head).  Returns the remaining (still reversed) headers and the
depth counter. -/
def pop_until (newParent : Nat) : List StoredHeader → Nat → List StoredHeader × Nat
  | [], depth => ([], depth)
  | h :: rest, depth =>
    if h.block_hash = newParent then (rest, depth + 1)
    else pop_until newParent rest (depth + 1)

/-- `handle_reorg`: pop headers from the tail, counting depth, until the
popped header's hash equals the new header's parent hash or the store is
exhausted.  Returns the truncated store and the depth. -/
def handle_reorg (headers : List StoredHeader) (newParent : Nat) :
    List StoredHeader × Nat :=
  let r := pop_until newParent headers.reverse 0
  (r.1.reverse, r.2)

/-- The `while headers.len() > 1000 { headers.remove(0) }` pruning loop of
`process_new_block`. -/
def prune_headers : List StoredHeader → List StoredHeader
  | [] => []
  | h :: t => if (h :: t).length > 1000 then prune_headers t else h :: t

/-- `process_new_block` for one chain: given the configured finality
depth, the chain id, the requested `block_number` and the provider's
response for it, update the chain state and return the emitted events in
order. -/
def process_new_block (finality_depth chain_id block_number : Nat)
    (fetched : Option StoredHeader) (st : ChainState) :
    ChainState × List LightClientEvent :=
  match fetched with
  | none => (st, [])
  | some header =>
    let step :=
      match st.headers.getLast? with
      | some last =>
        if header.parent_hash ≠ last.block_hash then
          let r := handle_reorg st.headers header.parent_hash
          (r.1, [LightClientEvent.Reorg chain_id r.2])
        else (st.headers, ([] : List LightClientEvent))
      | none => (st.headers, [])
    let headers2 := prune_headers (step.1 ++ [header])
    let fin :=
      if block_number > finality_depth then block_number - finality_depth
      else st.finalized
    (⟨headers2, fin⟩,
      step.2 ++ [LightClientEvent.NewBlock chain_id header.block_number header.block_hash])

/-- One chain's branch of `poll_new_blocks`: query the current height;
if the store has a last header and the height is strictly greater than
its number, run `process_new_block` on the fetched block, else no-op. -/
def poll_chain (finality_depth chain_id : Nat) (current : Nat)
    (fetch : Nat → Option StoredHeader) (st : ChainState) :
    ChainState × List LightClientEvent :=
  match st.headers.getLast? with
  | none => (st, [])
  | some latest =>
    if current > latest.block_number then
      process_new_block finality_depth chain_id current (fetch current) st
    else (st, [])

/-- `sync_headers`: bootstrap a chain from the provider's reported
current height, pushing every block the provider returns for the range
`[current - 2*finality_depth, current]` in ascending order, and set the
finalized watermark to `current - finality_depth` (`Nat` subtraction is
saturating, matching `saturating_sub`). -/
def sync_headers (finality_depth current : Nat)
    (fetch : Nat → Option StoredHeader) : ChainState :=
  let start := current - finality_depth * 2
  let headers :=
    (List.range' start (current + 1 - start)).foldl
      (fun acc n =>
        match fetch n with
        | some h => acc ++ [h]
        | none => acc) []
  ⟨headers, current - finality_depth⟩

/-- A sequence of poll ticks for one chain, each tick supplying the
provider's reported height and fetch responses; accumulates the events
emitted across the ticks. -/
def run_ticks (finality_depth chain_id : Nat) :
    List (Nat × (Nat → Option StoredHeader)) → ChainState →
    ChainState × List LightClientEvent
  | [], st => (st, [])
  | (current, fetch) :: rest, st =>
    let r1 := poll_chain finality_depth chain_id current fetch st
    let r2 := run_ticks finality_depth chain_id rest r1.1
    (r2.1, r1.2 ++ r2.2)

/-- Block number of the last stored header (`headers.last()`), 0 when
the store is empty. -/
def tail_number (st : ChainState) : Nat :=
  match st.headers.getLast? with
  | some h => h.block_number
  | none => 0

/-- `verify_merkle_proof`, parametric in the combining hash `H2`:
fold `current = H2 current sibling` over the siblings starting from the
leaf and compare with the root. -/
def verify_merkle_proof (H2 : Nat → Nat → Nat) (leaf : Nat)
    (proof : List Nat) (root : Nat) : Bool :=
  decide (proof.foldl (fun current sibling => H2 current sibling) leaf = root)

/-- `LightClient::get_header`: look up the chain's header vector and
linearly scan for the first header with the given block hash. -/
def get_header (chains : List (Nat × List StoredHeader))
    (chain_id block_hash : Nat) : Option StoredHeader :=
  (chains.lookup chain_id).bind
    (fun hs => hs.find? (fun h => h.block_hash == block_hash))

/-- `LightClient::verify_inclusion`: verify a Merkle proof for `tx_hash`
against the `transactions_root` of the stored header with hash
`block_hash`; false when no such header is stored. -/
def lc_verify_inclusion (H2 : Nat → Nat → Nat)
    (chains : List (Nat × List StoredHeader))
    (chain_id block_hash tx_hash : Nat) (proof : List Nat) : Bool :=
  match get_header chains chain_id block_hash with
  | some header => verify_merkle_proof H2 tx_hash proof header.transactions_root
  | none => false

/-- Flip one bit of a hash value. -/
def flip_bit (h i : Nat) : Nat := h ^^^ (2 ^ i)

/-- `ProverConfig` consumed by the prover service (`prover/mod.rs`). -/
structure ProverConfig where
  enabled : Bool
  max_concurrent : Nat
  timeout_secs : Nat
deriving DecidableEq, Repr

/-- `ProofRequest` from `prover/mod.rs`.  32-byte fields are byte lists
(length 32 where the source fixes `[u8; 32]`), `recipient` is 20 bytes,
amounts are `u64` values. -/
inductive ProofRequest where
  | Withdrawal (merkle_root nullifier : List Nat) (recipient : List Nat)
      (amount : Nat) (secret randomness : List Nat)
      (merkle_path : List (List Nat)) (merkle_indices : List Nat)
  | Transfer (merkle_root nullifier new_commitment_a new_commitment_b : List Nat)
      (secret randomness : List Nat)
      (merkle_path : List (List Nat)) (merkle_indices : List Nat)
  | Consistency (pedersen_commitment : List Nat) (paillier_ciphertext : List Nat)
      (value : Nat) (pedersen_randomness : List Nat) (paillier_randomness : List Nat)
  | Range (commitment : List Nat) (min_value value : Nat) (randomness : List Nat)
deriving DecidableEq, Repr

/-- `GeneratedProof` from `prover/mod.rs`.  Wall-clock time is outside the
embedding, so `generation_time_ms` is carried as a plain field set by the
generator's caller-observable construction (0 here). -/
structure GeneratedProof where
  proof_type : String
  proof_data : List Nat
  public_inputs : List (List Nat)
  generation_time_ms : Nat
deriving DecidableEq, Repr

/-- `generate_dummy_proof`: a fixed 192-byte zero buffer regardless of the
private inputs. -/
def generate_dummy_proof (_secret _randomness : List Nat)
    (_merkle_path : List (List Nat)) : List Nat :=
  List.replicate 192 0

/-- `amount.to_be_bytes()` for a `u64`: the 8 bytes in big-endian order. -/
def u64_be_bytes (n : Nat) : List Nat :=
  (List.range 8).map (fun i => n / 2 ^ (8 * (7 - i)) % 256)

/-- The pure body of `generate_proof`: the proof-type tag, proof bytes and
ordered public inputs for each request kind. -/
def generate_proof (request : ProofRequest) : GeneratedProof :=
  match request with
  | .Withdrawal merkle_root nullifier recipient amount secret randomness
      merkle_path _merkle_indices =>
    let proof := generate_dummy_proof secret randomness merkle_path
    let recipient_padded := List.replicate 12 0 ++ recipient
    let amount_bytes := List.replicate 24 0 ++ u64_be_bytes amount
    ⟨"withdrawal", proof, [merkle_root, nullifier, recipient_padded, amount_bytes], 0⟩
  | .Transfer merkle_root nullifier new_commitment_a new_commitment_b
      secret randomness merkle_path _merkle_indices =>
    let proof := generate_dummy_proof secret randomness merkle_path
    ⟨"transfer", proof,
      [merkle_root, nullifier, new_commitment_a, new_commitment_b], 0⟩
  | .Consistency pedersen_commitment _paillier_ciphertext _value
      pedersen_randomness _paillier_randomness =>
    let proof := generate_dummy_proof pedersen_randomness (List.replicate 32 0) []
    ⟨"consistency", proof, [pedersen_commitment], 0⟩
  | .Range commitment min_value _value randomness =>
    let proof := generate_dummy_proof randomness (List.replicate 32 0) []
    let min_bytes := List.replicate 24 0 ++ u64_be_bytes min_value
    ⟨"range", proof, [commitment, min_bytes], 0⟩

/-- Errors surfaced by `ProverService::generate`. -/
inductive ProverError where
  | ServiceDisabled
  | ChannelClosed
  | Timeout
deriving DecidableEq, Repr

/-- Caller-visible state of the `ProverService`: its configuration, the
free permits of the semaphore, and the pending request queue behind
`request_tx`. -/
structure ProverState where
  config : ProverConfig
  available_permits : Nat
  queue : List ProofRequest
deriving DecidableEq, Repr

/-- `ProverService::queue_depth`: `max_concurrent - available_permits`. -/
def queue_depth (s : ProverState) : Nat :=
  s.config.max_concurrent - s.available_permits

/-- Submission step of `ProverService::generate`: when the service is
disabled it fails with `ServiceDisabled` before touching the channel;
otherwise the request is enqueued on `request_tx`. -/
def generate (s : ProverState) (request : ProofRequest) :
    Except ProverError Unit × ProverState :=
  if !s.config.enabled then (.error .ServiceDisabled, s)
  else (.ok (), { s with queue := s.queue ++ [request] })

/-- A provider fetch function is number-consistent when every block it
returns carries the block number that was requested. -/
def FetchConsistent (f : Nat → Option StoredHeader) : Prop :=
  ∀ n h, f n = some h → h.block_number = n

/-- The per-chain state reached by bootstrapping at reported height `H`
and then running a sequence of poll ticks. -/
def reachable_state (finality_depth chain_id H : Nat)
    (f0 : Nat → Option StoredHeader)
    (ticks : List (Nat × (Nat → Option StoredHeader))) : ChainState :=
  (run_ticks finality_depth chain_id ticks (sync_headers finality_depth H f0)).1

/-- The finality invariant: the finalized watermark is at most the block
number of the last stored header, whenever the store is non-empty. -/
def fin_inv (st : ChainState) : Prop :=
  ∀ h, st.headers.getLast? = some h → st.finalized ≤ h.block_number

/-- A header whose block number is `n`, all hash fields zero. -/
def mk_header (n : Nat) : StoredHeader := ⟨n, 0, 0, 0, 0, 0, 0⟩

/-- A provider with no gaps: every requested number is answered with a
header carrying that number. -/
def gapless_fetch : Nat → Option StoredHeader := fun n => some (mk_header n)

/-- A provider that only knows block 70 (a gap at every other height). -/
def gap_fetch : Nat → Option StoredHeader :=
  fun n => if n = 70 then some (mk_header 70) else none

/-- Concrete chain `[cex_h0, cex_h1, cex_h2]` used to exercise reorg
resolution: hashes 100, 101, 102, each child of the previous. -/
def cex_h0 : StoredHeader := ⟨0, 100, 99, 0, 0, 0, 0⟩

/-- Second header of the concrete chain. -/
def cex_h1 : StoredHeader := ⟨1, 101, 100, 0, 0, 0, 0⟩

/-- Third header of the concrete chain. -/
def cex_h2 : StoredHeader := ⟨2, 102, 101, 0, 0, 0, 0⟩

/-- A newly fetched header whose parent is `cex_h0` (hash 100), i.e. a
competing branch replacing `cex_h1` and `cex_h2`. -/
def cex_new : StoredHeader := ⟨3, 103, 100, 0, 0, 0, 0⟩

section Lemmas

/-- The pruning loop drops exactly `length - 1000` entries from the head. -/
theorem prune_headers_eq_drop (l : List StoredHeader) :
    prune_headers l = l.drop (l.length - 1000) := by
  induction l with
  | nil => simp [prune_headers]
  | cons h t ih =>
    by_cases hc : (h :: t).length > 1000
    · rw [prune_headers, if_pos hc, ih]
      have hlen : (h :: t).length - 1000 = (t.length - 1000) + 1 := by
        simp only [List.length_cons] at hc ⊢; omega
      rw [hlen, List.drop_succ_cons]
    · rw [prune_headers, if_neg hc]
      have hlen : (h :: t).length - 1000 = 0 := by
        simp only [List.length_cons] at hc ⊢; omega
      rw [hlen, List.drop_zero]

/-- The pruning loop always restores the 1000-entry bound. -/
theorem prune_headers_length (l : List StoredHeader) :
    (prune_headers l).length ≤ 1000 := by
  rw [prune_headers_eq_drop, List.length_drop]
  omega

/-- Pruning a freshly appended list keeps the appended tail element. -/
theorem prune_headers_getLast (l : List StoredHeader) (h : StoredHeader) :
    (prune_headers (l ++ [h])).getLast? = some h := by
  rw [prune_headers_eq_drop]
  have hk : (l ++ [h]).length - 1000 ≤ l.length := by
    simp only [List.length_append, List.length_singleton]; omega
  rw [List.drop_append_of_le_length hk, List.getLast?_concat]

/-- The source's push-on-`Some` fold is `filterMap` of the fetch. -/
theorem foldl_push_eq_filterMap (f : Nat → Option StoredHeader) :
    ∀ (ns : List Nat) (acc : List StoredHeader),
      ns.foldl (fun acc n =>
        match f n with
        | some h => acc ++ [h]
        | none => acc) acc = acc ++ ns.filterMap f := by
  intro ns
  induction ns with
  | nil => intro acc; simp
  | cons n ns ih =>
    intro acc
    cases hf : f n <;> simp [List.filterMap_cons, hf, ih]

/-- The tail of the bootstrapped header sequence is exactly the
provider's block for the reported height, when that fetch succeeded. -/
theorem sync_headers_tail (d H : Nat) (f : Nat → Option StoredHeader)
    (htip : (f H).isSome) :
    (sync_headers d H f).headers.getLast? = f H := by
  obtain ⟨hH, hfH⟩ := Option.isSome_iff_exists.mp htip
  have hheaders : (sync_headers d H f).headers
      = (List.range' (H - d * 2) (H + 1 - (H - d * 2))).filterMap f := by
    simpa using
      foldl_push_eq_filterMap f (List.range' (H - d * 2) (H + 1 - (H - d * 2))) []
  have hn : H + 1 - (H - d * 2) = (H - (H - d * 2)) + 1 := by omega
  have hrange : List.range' (H - d * 2) (H + 1 - (H - d * 2))
      = List.range' (H - d * 2) (H - (H - d * 2)) ++ [H] := by
    rw [hn, List.range'_1_concat]
    congr 2
    omega
  rw [hheaders, hrange, List.filterMap_append]
  simp [hfH]

/-- Bootstrapping establishes the finality invariant, provided the
provider answered the tip fetch with a number-consistent block. -/
theorem sync_headers_inv (d H : Nat) (f : Nat → Option StoredHeader)
    (hf : FetchConsistent f) (htip : (f H).isSome) :
    fin_inv (sync_headers d H f) := by
  intro h hg
  rw [sync_headers_tail d H f htip] at hg
  have hnum : h.block_number = H := hf H h hg
  have hfin : (sync_headers d H f).finalized = H - d := rfl
  rw [hfin, hnum]
  exact Nat.sub_le H d

/-- One poll tick preserves the finality invariant, for any reported
height, provided the fetch responses are number-consistent. -/
theorem poll_chain_preserves (d cid cur : Nat) (f : Nat → Option StoredHeader)
    (hf : FetchConsistent f) (st : ChainState) (hinv : fin_inv st) :
    fin_inv (poll_chain d cid cur f st).1 := by
  unfold poll_chain
  cases hlast : st.headers.getLast? with
  | none => exact hinv
  | some latest =>
    dsimp only
    by_cases hgt : cur > latest.block_number
    · rw [if_pos hgt]
      unfold process_new_block
      cases hfetch : f cur with
      | none => exact hinv
      | some hdr =>
        have hnum : hdr.block_number = cur := hf cur hdr hfetch
        intro h hg
        simp only at hg
        rw [prune_headers_getLast] at hg
        cases hg
        simp only
        rw [hnum]
        by_cases hfd : cur > d
        · rw [if_pos hfd]
          omega
        · rw [if_neg hfd]
          exact Nat.le_of_lt (Nat.lt_of_le_of_lt (hinv latest hlast) hgt)
    · rw [if_neg hgt]
      exact hinv

/-- Any sequence of poll ticks with number-consistent fetches preserves
the finality invariant. -/
theorem run_ticks_preserves (d cid : Nat) :
    ∀ (ticks : List (Nat × (Nat → Option StoredHeader))),
      (∀ p ∈ ticks, FetchConsistent p.2) →
      ∀ st : ChainState, fin_inv st → fin_inv (run_ticks d cid ticks st).1 := by
  intro ticks
  induction ticks with
  | nil => intro _ st h; exact h
  | cons t rest ih =>
    intro hcons st h
    obtain ⟨cur, f⟩ := t
    simp only [run_ticks]
    exact ih (fun p hp => hcons p (List.mem_cons_of_mem _ hp)) _
      (poll_chain_preserves d cid cur f (hcons _ (List.mem_cons_self _ _)) st h)

end Lemmas

/-- C6: after any append, the pruned header sequence has length at most
1000, equals the appended sequence with exactly `length - 1000` entries
dropped from the head (oldest first), and still ends with the freshly
appended header — the tail is never evicted. -/
theorem capacity_bound_after_append :
    (∀ (l : List StoredHeader) (h : StoredHeader),
      (prune_headers (l ++ [h])).length ≤ 1000 ∧
      prune_headers (l ++ [h]) = (l ++ [h]).drop ((l ++ [h]).length - 1000) ∧
      (prune_headers (l ++ [h])).getLast? = some h) ∧
    (∀ (d cid bn : Nat) (hdr : StoredHeader) (st : ChainState),
      (process_new_block d cid bn (some hdr) st).1.headers.length ≤ 1000 ∧
      (process_new_block d cid bn (some hdr) st).1.headers.getLast? = some hdr) := by
  constructor
  · intro l h
    exact ⟨prune_headers_length (l ++ [h]), prune_headers_eq_drop (l ++ [h]),
      prune_headers_getLast l h⟩
  · intro d cid bn hdr st
    exact ⟨prune_headers_length _, prune_headers_getLast _ hdr⟩

/-- C3: a chain whose header sequence is empty is never repopulated by
polling: any sequence of poll ticks, with arbitrary provider responses,
leaves the state unchanged and emits no event. -/
theorem empty_store_stays_empty (d cid fin : Nat)
    (ticks : List (Nat × (Nat → Option StoredHeader))) :
    run_ticks d cid ticks ⟨[], fin⟩ = (⟨[], fin⟩, []) := by
  induction ticks with
  | nil => rfl
  | cons t rest ih =>
    obtain ⟨cur, f⟩ := t
    simp [run_ticks, poll_chain, ih]

/-- C4: bootstrapping at reported height `H` builds the header sequence
by fetching every number in `[H - 2*finality_depth, H]` in ascending
order (`Nat` subtraction saturates at 0) and keeping exactly the blocks
the provider returns, and sets `finalized = H - finality_depth`; from
height 100 with depth 15 and no gaps this stores the 31 headers for
blocks 70 through 100 and sets `finalized = 85`. -/
theorem bootstrap_backfill (d H : Nat) (f : Nat → Option StoredHeader) :
    (sync_headers d H f).headers
        = (List.range' (H - d * 2) (H + 1 - (H - d * 2))).filterMap f ∧
    (sync_headers d H f).finalized = H - d ∧
    (sync_headers 15 100 gapless_fetch).headers
        = (List.range' 70 31).map mk_header ∧
    (sync_headers 15 100 gapless_fetch).headers.length = 31 ∧
    (sync_headers 15 100 gapless_fetch).finalized = 85 := by
  refine ⟨?_, rfl, by decide, by decide, by decide⟩
  simpa using foldl_push_eq_filterMap f (List.range' (H - d * 2) (H + 1 - (H - d * 2))) []

/-- C7: when the provider's reported height is at most the number of the
last stored header, a poll tick for that chain changes nothing and emits
no event. -/
theorem poll_not_ahead_noop (d cid cur : Nat) (f : Nat → Option StoredHeader)
    (hs : List StoredHeader) (fin : Nat) (last : StoredHeader)
    (hlast : hs.getLast? = some last) (hle : cur ≤ last.block_number) :
    poll_chain d cid cur f ⟨hs, fin⟩ = (⟨hs, fin⟩, []) := by
  simp only [poll_chain, hlast]
  rw [if_neg]
  exact fun hgt => absurd hle (Nat.not_le.mpr hgt)

/-- Witness for C7 at a concrete state: store `[mk_header 5]`, reported
height 5. -/
theorem poll_not_ahead_noop_witness :
    poll_chain 15 1 5 gapless_fetch ⟨[mk_header 5], 0⟩ = (⟨[mk_header 5], 0⟩, []) :=
  poll_not_ahead_noop 15 1 5 gapless_fetch [mk_header 5] 0 (mk_header 5) rfl
    (by decide)

/-- C8: when the service is disabled, `generate` fails immediately with
`ServiceDisabled`, the request is not enqueued, the state (hence the
free-permit count) is untouched, and `queue_depth` does not increase. -/
theorem disabled_generate (s : ProverState) (req : ProofRequest)
    (hdis : s.config.enabled = false) :
    generate s req = (Except.error ProverError.ServiceDisabled, s) ∧
    (generate s req).2.queue = s.queue ∧
    queue_depth (generate s req).2 = queue_depth s := by
  simp [generate, hdis]

/-- Witness for C8: a disabled service with 4 free permits and a concrete
range request. -/
theorem disabled_generate_witness :
    generate ⟨⟨false, 4, 60⟩, 4, []⟩
        (ProofRequest.Range (List.replicate 32 0) 100 200 (List.replicate 32 0))
      = (Except.error ProverError.ServiceDisabled, ⟨⟨false, 4, 60⟩, 4, []⟩) ∧
    queue_depth (generate ⟨⟨false, 4, 60⟩, 4, []⟩
        (ProofRequest.Range (List.replicate 32 0) 100 200 (List.replicate 32 0))).2
      = queue_depth ⟨⟨false, 4, 60⟩, 4, []⟩ := by
  have h := disabled_generate ⟨⟨false, 4, 60⟩, 4, []⟩
    (ProofRequest.Range (List.replicate 32 0) 100 200 (List.replicate 32 0)) rfl
  exact ⟨h.1, h.2.2⟩

/-- C9: a withdrawal proof's public inputs are exactly, in order, the
merkle root, the nullifier, the 20-byte recipient right-aligned in a
32-byte word and the amount as big-endian bytes right-aligned in a
32-byte word; and every request kind yields a 192-byte proof buffer. -/
theorem withdrawal_public_inputs
    (merkle_root nullifier recipient secret randomness : List Nat)
    (amount : Nat) (merkle_path : List (List Nat)) (merkle_indices : List Nat)
    (hrec : recipient.length = 20) :
    (generate_proof (ProofRequest.Withdrawal merkle_root nullifier recipient
        amount secret randomness merkle_path merkle_indices)).public_inputs
      = [merkle_root, nullifier, List.replicate 12 0 ++ recipient,
         List.replicate 24 0 ++ u64_be_bytes amount] ∧
    (List.replicate 12 0 ++ recipient).length = 32 ∧
    (List.replicate 24 0 ++ u64_be_bytes amount).length = 32 ∧
    (∀ req : ProofRequest, (generate_proof req).proof_data.length = 192) := by
  refine ⟨rfl, by simp [hrec], by simp [u64_be_bytes], ?_⟩
  intro req
  have hdata : (generate_proof req).proof_data = List.replicate 192 0 := by
    cases req <;> rfl
  rw [hdata, List.length_replicate]

/-- Witness for C9 at a concrete withdrawal request (all-zero fields,
amount 5) and a concrete range request for the proof-length part. -/
theorem withdrawal_public_inputs_witness :
    (generate_proof (ProofRequest.Withdrawal (List.replicate 32 1)
        (List.replicate 32 2) (List.replicate 20 3) 5 (List.replicate 32 4)
        (List.replicate 32 6) [] [])).public_inputs
      = [List.replicate 32 1, List.replicate 32 2,
         List.replicate 12 0 ++ List.replicate 20 3,
         List.replicate 24 0 ++ u64_be_bytes 5] ∧
    (generate_proof (ProofRequest.Range (List.replicate 32 0) 100 200
        (List.replicate 32 0))).proof_data.length = 192 := by
  have h := withdrawal_public_inputs (List.replicate 32 1) (List.replicate 32 2)
    (List.replicate 20 3) (List.replicate 32 4) (List.replicate 32 6) 5 [] []
    (by decide)
  exact ⟨h.1, h.2.2.2 (ProofRequest.Range (List.replicate 32 0) 100 200
    (List.replicate 32 0))⟩

/-- C2 fails as stated: bootstrapping at reported height 100 with
finality depth 15 against a provider that only answers for block 70
(a gap at every other height, as the claim allows) reaches a non-empty
store whose tail has number 70 while `finalized = 85`. -/
theorem finalized_le_tail_counterexample :
    (reachable_state 15 1 100 gap_fetch []).headers ≠ [] ∧
    ¬ ((reachable_state 15 1 100 gap_fetch []).finalized
        ≤ tail_number (reachable_state 15 1 100 gap_fetch [])) := by
  decide

/-- C2 (amended): the invariant `finalized ≤ tail.block_number` holds in
every state reachable by bootstrapping followed by any sequence of poll
ticks, provided every block the provider returns carries the requested
block number and the bootstrap fetch at the reported height itself
returned a block. -/
theorem finalized_le_tail (d cid H : Nat) (f0 : Nat → Option StoredHeader)
    (ticks : List (Nat × (Nat → Option StoredHeader)))
    (hcons0 : FetchConsistent f0) (htip : (f0 H).isSome)
    (hconsT : ∀ p ∈ ticks, FetchConsistent p.2)
    (hne : (reachable_state d cid H f0 ticks).headers ≠ []) :
    (reachable_state d cid H f0 ticks).finalized
      ≤ tail_number (reachable_state d cid H f0 ticks) := by
  have hinv : fin_inv (reachable_state d cid H f0 ticks) :=
    run_ticks_preserves d cid ticks hconsT _ (sync_headers_inv d H f0 hcons0 htip)
  cases hg : (reachable_state d cid H f0 ticks).headers.getLast? with
  | none => exact absurd (List.getLast?_eq_none_iff.mp hg) hne
  | some h =>
    have hle := hinv h hg
    simpa [tail_number, hg] using hle

/-- Witness for the amended C2: gapless, number-consistent provider,
bootstrap at height 100 and one poll tick at height 101. -/
theorem finalized_le_tail_witness :
    (reachable_state 15 1 100 gapless_fetch [(101, gapless_fetch)]).finalized
      ≤ tail_number (reachable_state 15 1 100 gapless_fetch [(101, gapless_fetch)]) := by
  have hcons : FetchConsistent gapless_fetch := by
    intro n h e
    rw [gapless_fetch] at e
    cases e
    rfl
  exact finalized_le_tail 15 1 100 gapless_fetch [(101, gapless_fetch)] hcons rfl
    (by
      intro p hp
      rcases List.mem_singleton.mp hp with rfl
      exact hcons)
    (by decide)

/-- C1 fails as stated: for the stored chain `[cex_h0, cex_h1, cex_h2]`
and a new header whose parent hash equals `cex_h0`'s hash, the algorithm
pops all three headers (the reconnection header included), emits `Reorg`
with depth 3 — not 2 — and leaves the store `[cex_new]`, not
`[cex_h0, cex_new]`. -/
theorem reorg_depth_counterexample :
    process_new_block 15 1 3 (some cex_new) ⟨[cex_h0, cex_h1, cex_h2], 0⟩
      = (⟨[cex_new], 0⟩,
         [LightClientEvent.Reorg 1 3, LightClientEvent.NewBlock 1 3 103]) ∧
    (process_new_block 15 1 3 (some cex_new)
        ⟨[cex_h0, cex_h1, cex_h2], 0⟩).1.headers ≠ [cex_h0, cex_new] ∧
    LightClientEvent.Reorg 1 2 ∉
      (process_new_block 15 1 3 (some cex_new)
        ⟨[cex_h0, cex_h1, cex_h2], 0⟩).2 := by
  decide

/-- C1 (amended): for a stored sequence `[h0, h1, h2]` whose later hashes
differ from `h0`'s, and a new header whose parent hash equals `h0`'s
hash, the append-or-reorg algorithm pops `h2`, `h1` and `h0` (the
reconnection header is popped as well), emits `Reorg` with depth 3,
then appends the new header, leaving the store `[new]`. -/
theorem reorg_resolution (d cid bn fin : Nat) (h0 h1 h2 newh : StoredHeader)
    (hparent : newh.parent_hash = h0.block_hash)
    (hne2 : h2.block_hash ≠ h0.block_hash)
    (hne1 : h1.block_hash ≠ h0.block_hash) :
    process_new_block d cid bn (some newh) ⟨[h0, h1, h2], fin⟩
      = (⟨[newh], if bn > d then bn - d else fin⟩,
         [LightClientEvent.Reorg cid 3,
          LightClientEvent.NewBlock cid newh.block_number newh.block_hash]) := by
  simp [process_new_block, handle_reorg, pop_until, prune_headers, hparent,
    hne1, hne2, Ne.symm hne2]

/-- Witness for the amended C1 at the concrete chain
`[cex_h0, cex_h1, cex_h2]` and new header `cex_new`. -/
theorem reorg_resolution_witness :
    process_new_block 15 1 3 (some cex_new) ⟨[cex_h0, cex_h1, cex_h2], 0⟩
      = (⟨[cex_new], 0⟩,
         [LightClientEvent.Reorg 1 3, LightClientEvent.NewBlock 1 3 103]) := by
  have h := reorg_resolution 15 1 3 0 cex_h0 cex_h1 cex_h2 cex_new rfl
    (by decide) (by decide)
  simpa using h

/-- C10: with an empty sibling list, `verify_merkle_proof` succeeds iff
the leaf equals the root; hence the facade's `verify_inclusion` with an
empty proof succeeds iff a header with the given block hash is stored for
the chain (the first such found by the scan) and the transaction hash
equals that header's transactions root. -/
theorem empty_proof_verification :
    (∀ (H2 : Nat → Nat → Nat) (leaf root : Nat),
      verify_merkle_proof H2 leaf [] root = true ↔ leaf = root) ∧
    (∀ (H2 : Nat → Nat → Nat) (chains : List (Nat × List StoredHeader))
        (cid bh tx : Nat),
      lc_verify_inclusion H2 chains cid bh tx [] = true ↔
        ∃ h, get_header chains cid bh = some h ∧ h.block_hash = bh ∧
          tx = h.transactions_root) := by
  constructor
  · intro H2 leaf root
    simp [verify_merkle_proof]
  · intro H2 chains cid bh tx
    cases hg : get_header chains cid bh with
    | none =>
      simp only [lc_verify_inclusion, hg]
      constructor
      · intro hfalse; cases hfalse
      · rintro ⟨h, hsome, -, -⟩; cases hsome
    | some h =>
      have hbh : h.block_hash = bh := by
        rw [get_header] at hg
        rcases Option.bind_eq_some.mp hg with ⟨hs, -, hfind⟩
        have := List.find?_some hfind
        simpa using this
      simp only [lc_verify_inclusion, hg, verify_merkle_proof, List.foldl_nil,
        decide_eq_true_eq]
      constructor
      · intro heq; exact ⟨h, rfl, hbh, heq⟩
      · rintro ⟨h', hsome, -, heq⟩
        cases hsome
        exact heq

theorem flip_bit_ne (h i : Nat) : flip_bit h i ≠ h := by
  intro he
  have h2 : h ^^^ (h ^^^ 2 ^ i) = h ^^^ h := by
    rw [flip_bit] at he
    rw [he]
  rw [← Nat.xor_assoc, Nat.xor_self, Nat.zero_xor] at h2
  exact pow_ne_zero i two_ne_zero h2

/-- C5: verification folds the combining hash over the siblings in order
and succeeds exactly when the folded value equals the root; in
particular, for any collision-free combining hash, a two-sibling proof
against the honestly combined root verifies, and flipping any single bit
of the leaf, of either sibling, or of the root makes it fail. -/
theorem merkle_verification (H2 : Nat → Nat → Nat)
    (hinj : ∀ a b a' b', H2 a b = H2 a' b' → a = a' ∧ b = b')
    (leaf s1 s2 : Nat) (proof : List Nat) (root : Nat) (i j k m : Nat) :
    (verify_merkle_proof H2 leaf proof root = true ↔
      proof.foldl (fun current sibling => H2 current sibling) leaf = root) ∧
    verify_merkle_proof H2 leaf [s1, s2] (H2 (H2 leaf s1) s2) = true ∧
    verify_merkle_proof H2 (flip_bit leaf i) [s1, s2] (H2 (H2 leaf s1) s2) = false ∧
    verify_merkle_proof H2 leaf [flip_bit s1 j, s2] (H2 (H2 leaf s1) s2) = false ∧
    verify_merkle_proof H2 leaf [s1, flip_bit s2 k] (H2 (H2 leaf s1) s2) = false ∧
    verify_merkle_proof H2 leaf [s1, s2] (flip_bit (H2 (H2 leaf s1) s2) m) = false := by
  refine ⟨by simp [verify_merkle_proof], by simp [verify_merkle_proof],
    ?_, ?_, ?_, ?_⟩
  · simp only [verify_merkle_proof, List.foldl_cons, List.foldl_nil,
      decide_eq_false_iff_not]
    intro heq
    rcases hinj _ _ _ _ heq with ⟨heq1, -⟩
    rcases hinj _ _ _ _ heq1 with ⟨heq2, -⟩
    exact flip_bit_ne leaf i heq2
  · simp only [verify_merkle_proof, List.foldl_cons, List.foldl_nil,
      decide_eq_false_iff_not]
    intro heq
    rcases hinj _ _ _ _ heq with ⟨heq1, -⟩
    rcases hinj _ _ _ _ heq1 with ⟨-, heq2⟩
    exact flip_bit_ne s1 j heq2
  · simp only [verify_merkle_proof, List.foldl_cons, List.foldl_nil,
      decide_eq_false_iff_not]
    intro heq
    rcases hinj _ _ _ _ heq with ⟨-, heq2⟩
    exact flip_bit_ne s2 k heq2
  · simp only [verify_merkle_proof, List.foldl_cons, List.foldl_nil,
      decide_eq_false_iff_not]
    intro heq
    exact flip_bit_ne (H2 (H2 leaf s1) s2) m heq.symm

/-- Witness for C5 with the injective pairing `Nat.pair` as combining
hash: a bit-flipped leaf fails against the honest two-sibling root and
the honest proof verifies. -/
theorem merkle_verification_witness :
    verify_merkle_proof Nat.pair 1 [2, 3] (Nat.pair (Nat.pair 1 2) 3) = true ∧
    verify_merkle_proof Nat.pair (flip_bit 1 0) [2, 3]
      (Nat.pair (Nat.pair 1 2) 3) = false := by
  have h := merkle_verification Nat.pair
    (fun a b a' b' he => Nat.pair_eq_pair.mp he) 1 2 3 [] 0 0 0 0 0
  exact ⟨h.2.1, h.2.2.1⟩

end EthLaundry
